import Mathlib

/-!
Verification development for the ArtellaUpdater bootstrapper
(`src/scripts/app.py`).  The Python functions that the claims are about are
shallowly embedded as executable Lean definitions; external collaborators
(the `packaging` version parser, `json`, the filesystem, the network) appear
either as explicit parameters or as small models documented at their
definition sites.
-/

/-! ### Version model

`app.py` uses `packaging.version.Version` / `InvalidVersion` (an external
library).  `PyVersion` and `pep440_parse` model it, restricted to the
dotted-numeric grammar with an optional `rc` pre-release suffix that the
spec's VersionParser section describes (`N(.N)*` optionally followed by
`rc` and digits); every other string fails to parse, matching
`InvalidVersion` on the tag shapes the updater manipulates. -/

/-- A parsed version: numeric release components plus an optional
`rc` pre-release number (`is_prerelease` in `packaging` terms is
`rc.isSome`). Modelled from the spec: the external `packaging.version`
library is not part of this repository. -/
structure PyVersion where
  release : List Nat
  rc : Option Nat
deriving Repr, DecidableEq

/-- Numeric value of a digit character. -/
def digitVal (c : Char) : Nat := c.toNat - 48

/-- Greedy scanner for the dotted release segment: `comps` are the completed
components, `cur` the component currently being read (at least one digit of
it has been consumed), `pendingDot` records a consumed `.` that still awaits
its first digit (if none follows, the dot is given back to the remainder). -/
def releaseGo (comps : List Nat) (cur : Nat) (pendingDot : Bool) : List Char → List Nat × List Char
  | [] => if pendingDot then (comps ++ [cur], ['.']) else (comps ++ [cur], [])
  | c :: cs =>
    if pendingDot then
      if c.isDigit then releaseGo (comps ++ [cur]) (digitVal c) false cs
      else (comps ++ [cur], '.' :: c :: cs)
    else
      if c.isDigit then releaseGo comps (cur * 10 + digitVal c) false cs
      else if c = '.' then releaseGo comps cur true cs
      else (comps ++ [cur], c :: cs)

/-- Parse the leading dotted-numeric release segment, returning the
components and the unconsumed remainder; fails when the string does not
start with a digit. -/
def parseRelease : List Char → Option (List Nat × List Char)
  | [] => none
  | c :: cs => if c.isDigit then some (releaseGo [] (digitVal c) false cs) else none

/-- Longest run of leading digit characters and the remainder. -/
def leadingDigits : List Char → List Char × List Char
  | [] => ([], [])
  | c :: cs =>
    if c.isDigit then
      let p := leadingDigits cs
      (c :: p.1, p.2)
    else ([], c :: cs)

/-- Numeric value of a digit string (0 for the empty string, matching the
implicit zero of a bare `rc` pre-release marker). -/
def digitsToNat (ds : List Char) : Nat := ds.foldl (fun n c => n * 10 + digitVal c) 0

/-- Parse the optional `rc` pre-release tail; the whole remainder must be
consumed for the version to be valid. -/
def parseRcTail : List Char → Option (Option Nat)
  | [] => some none
  | 'r' :: 'c' :: rest =>
    match leadingDigits rest with
    | (ds, []) => some (some (digitsToNat ds))
    | _ => none
  | _ => none

/-- Model of `packaging.version.Version(s)`: `some` is a successful parse,
`none` models `InvalidVersion` being raised. Modelled from the spec
(VersionParser): dotted-numeric components with an optional `rc`
pre-release marker; anything else is invalid. -/
def pep440_parse (s : String) : Option PyVersion :=
  match parseRelease s.data with
  | some (rel, rest) => (parseRcTail rest).map (fun rc => PyVersion.mk rel rc)
  | none => none

/-- Compare release component lists, padding the shorter one with zeros,
as PEP 440 release segments compare. -/
def releaseCmp : List Nat → List Nat → Ordering
  | [], b => if b.all (fun y => y = 0) then Ordering.eq else Ordering.lt
  | x :: xs, [] => if x = 0 then releaseCmp xs [] else Ordering.gt
  | x :: xs, y :: ys =>
    if x < y then Ordering.lt
    else if y < x then Ordering.gt
    else releaseCmp xs ys

/-- Strict order on parsed versions: release components first, and a
pre-release sorts before the corresponding final release. -/
def pyVersionLt (a b : PyVersion) : Bool :=
  match releaseCmp a.release b.release with
  | Ordering.lt => true
  | Ordering.gt => false
  | Ordering.eq =>
    match a.rc, b.rc with
    | some _, none => true
    | none, _ => false
    | some x, some y => x < y

/-! ### `_sanitize_github_version` (app.py:940-946)

`re.search(r'([0-9]+([.][0-9]+)+(rc[0-9]?)?)', version)` followed by
`group(1)` on a match and `version.strip()` otherwise.  The regex has no
backtracking on this pattern, so the leftmost greedy match below coincides
with Python's `re.search`. -/

/-- Greedy matcher for `([.][0-9]+)+` that collects the matched characters;
`pendingDot` records a consumed dot still awaiting its first digit. -/
def dotGroupsGo (acc : List Char) : Bool → List Char → List Char × List Char
  | false, [] => (acc, [])
  | false, c :: cs =>
    if c.isDigit then dotGroupsGo (acc ++ [c]) false cs
    else if c = '.' then dotGroupsGo acc true cs
    else (acc, c :: cs)
  | true, [] => (acc, ['.'])
  | true, c :: cs =>
    if c.isDigit then dotGroupsGo (acc ++ ['.', c]) false cs
    else (acc, '.' :: c :: cs)

/-- Greedy matcher for the optional `rc[0-9]?` suffix of the sanitize
regex (note: at most one digit, exactly as in the source pattern). -/
def matchRc : List Char → List Char
  | 'r' :: 'c' :: d :: _ => if d.isDigit then ['r', 'c', d] else ['r', 'c']
  | 'r' :: 'c' :: [] => ['r', 'c']
  | _ => []

/-- Try to match the sanitize regex at the head of the character list,
returning the matched characters. -/
def matchVersionAt (cs : List Char) : Option (List Char) :=
  match leadingDigits cs with
  | ([], _) => none
  | (ds, rest) =>
    match dotGroupsGo [] false rest with
    | (groups, rest2) =>
      if groups = [] then none
      else some (ds ++ groups ++ matchRc rest2)

/-- Leftmost search for the sanitize regex, as `re.search` does. -/
def regexSearchVersion : List Char → Option (List Char)
  | [] => none
  | c :: cs =>
    match matchVersionAt (c :: cs) with
    | some m => some m
    | none => regexSearchVersion cs

/-- Model of Python `str.strip()`: drop leading and trailing whitespace. -/
def stripChars (l : List Char) : List Char :=
  ((l.dropWhile Char.isWhitespace).reverse.dropWhile Char.isWhitespace).reverse

/-- `_sanitize_github_version` (app.py:940-946): the first substring
matching the dotted-numeric pattern, or the stripped input when there is
no match. -/
def _sanitize_github_version (version : String) : String :=
  match regexSearchVersion version.data with
  | some m => String.mk m
  | none => String.mk (stripChars version.data)

/-! ### Config store model (app.py:132-150, 1163-1181)

The store is a JSON file.  Its on-disk state is modelled as
`Option (Except Unit PyJson)`: `none` is "file absent", `some (.error ())`
is "present but `json.load` raises", `some (.ok j)` is "present and
`json.load` returns `j`".  `json.dump`/`json.load` round-tripping of a
string-to-string object is assumed of the external `json` library by
storing the parsed value directly. -/

/-- A JSON document as the config code observes it: either an object with
string values, or any other JSON value (on which `dict`-style access
raises). -/
inductive PyJson
  | jobj (m : List (String × String))
  | jother
deriving Repr, DecidableEq

/-- On-disk state of the config file. -/
abbrev ConfigFile := Option (Except Unit PyJson)

/-- `get_config_data` (app.py:132-150): `{}` when the file is absent,
`{}` when `json.load` raises (the `except Exception` branch), otherwise
the loaded document.  The function is total: no state makes it raise. -/
def get_config_data : ConfigFile → PyJson
  | none => PyJson.jobj []
  | some (Except.error _) => PyJson.jobj []
  | some (Except.ok j) => j

/-- Key lookup on a loaded config document (`data.get(k)` on a dict;
`none` for a non-dict, where `.get` would not exist). -/
def config_lookup : PyJson → String → Option String
  | PyJson.jobj m, k => m.lookup k
  | PyJson.jother, _ => none

/-- Python `dict` assignment `d[k] = v` on an association list: replace
the first binding of `k`, or append a new binding. -/
def setKey : List (String × String) → String → String → List (String × String)
  | [], k, v => [(k, v)]
  | (k1, v1) :: rest, k, v =>
    if k1 = k then (k, v) :: rest else (k1, v1) :: setKey rest k v

/-- `_set_config` (app.py:1163-1181): refuse (returning `False`) when the
file does not exist; otherwise read the current data via
`get_config_data`, set the key and rewrite the file wholesale.  On a
non-object document the `config_data[config_name] = config_value`
assignment raises (`Except.error`). -/
def _set_config (k v : String) (file : ConfigFile) : Except Unit (ConfigFile × Bool) :=
  match file with
  | none => Except.ok (none, false)
  | some _ =>
    match get_config_data file with
    | PyJson.jother => Except.error ()
    | PyJson.jobj m => Except.ok (some (Except.ok (PyJson.jobj (setKey m k v))), true)

/-! ### `_get_deploy_tag` (app.py:995-1023)

Resolution of the deploy tag.  The network-backed
`_get_latest_deploy_tag()` call is passed in as its outcome `latest`
(`none` models the Python `None` return); the user's answer to the
upgrade prompt is `accept`.  `Version(deploy_tag)` and
`Version(latest_deploy_tag)` are called with no `try`/`except`, so a
parse failure — including `latest` being `None` — raises, which the model
renders as `Except.error ()`.  The result pairs the chosen tag (a Python
string or `None`) with the possibly rewritten config file. -/
def _get_deploy_tag (dev : Bool) (file : ConfigFile) (latest : Option String) (accept : Bool) :
    Except Unit (Option String × ConfigFile) :=
  if dev then Except.ok (some "DEV", file)
  else
    match get_config_data file with
    | PyJson.jother => Except.error ()
    | PyJson.jobj m =>
      let deployTag := (m.lookup "tag").getD ""
      if deployTag = "" then Except.ok (latest, file)
      else
        match pep440_parse deployTag with
        | none => Except.error ()
        | some dv =>
          match latest with
          | none => Except.error ()
          | some ls =>
            match pep440_parse ls with
            | none => Except.error ()
            | some lv =>
              if pyVersionLt dv lv then
                if accept then
                  match _set_config "tag" ls file with
                  | Except.ok (f2, _) => Except.ok (some ls, f2)
                  | Except.error e => Except.error e
                else Except.ok (some deployTag, file)
              else Except.ok (some deployTag, file)

/-! ### `_get_latest_deploy_tag` (app.py:1025-1141)

The release page backs the scan (`sniff` mode, `format='version'`).  The
while loop walks the page's top-level `release-entry` nodes in order; a
node is either a `release-timeline-tags` block — a listing of nested
`release-entry` tag nodes, each with an optional anchor text (`none`
models a node without an `<a>`, which the code skips) — or a formal
release whose version text sits under `css-truncate-target` and which
may carry the `label-latest` and `label-prerelease` badges. -/
inductive ReleaseBlock
  | timelineTags (tags : List (Option String))
  | formal (tag : String) (hasLatestLabel : Bool) (hasPrereleaseLabel : Bool)
deriving Repr, DecidableEq

/-- The inner `for` loop of the `release-timeline-tags` branch
(app.py:1061-1081): anchorless entries are skipped; with `validate`, a
sanitized tag that parses with compatible pre-release status sets
`version` and `break_out` (second component `true`), an unparseable tag
is logged and skipped; without `validate`, the first anchored entry sets
`version` but leaves the `for` loop with `break_out` still false (second
component `false`), so the outer while loop keeps walking. -/
def scan_tags_entries (validate : Bool) (pre : Bool) :
    List (Option String) → Option String × Bool
  | [] => (none, false)
  | none :: rest => scan_tags_entries validate pre rest
  | some t :: rest =>
    let v := _sanitize_github_version t
    if validate then
      match pep440_parse v with
      | some pv =>
        if !pv.rc.isSome || pre then (some v, true)
        else scan_tags_entries validate pre rest
      | none => scan_tags_entries validate pre rest
    else (some v, false)

/-- The sibling `while` loop of `_get_latest_deploy_tag`
(app.py:1058-1117); `version` is the accumulator of the Python local of
the same name.  A tags block with `break_out` set leaves the loop.  A
formal release (the `else` branch, app.py:1084-1115) is considered only
when it carries the badge the `pre` flag selects (`label-prerelease`
with `pre`, `label-latest` otherwise) — an unlabeled formal entry is
skipped regardless of its tag — and an accepted formal tag leaves the
loop. -/
def scan_blocks (validate : Bool) (pre : Bool) :
    Option String → List ReleaseBlock → Option String
  | version, [] => version
  | version, ReleaseBlock.timelineTags tags :: rest =>
    match scan_tags_entries validate pre tags with
    | (some v, true) => some v
    | (some v, false) => scan_blocks validate pre (some v) rest
    | (none, _) => scan_blocks validate pre version rest
  | version, ReleaseBlock.formal tag hasLatest hasPre :: rest =>
    if (if pre then hasPre else hasLatest) then
      let v := _sanitize_github_version tag
      if validate then
        match pep440_parse v with
        | some pv =>
          if !pv.rc.isSome || pre then some v
          else scan_blocks validate pre version rest
        | none => scan_blocks validate pre version rest
      else some v
    else scan_blocks validate pre version rest

/-- `_get_latest_deploy_tag` in `format='version'` mode: the while loop
above (entered with `version = None`), followed by the function's
trailing guards (`if not version: return None` and the re-validation of
the accepted version). -/
def _get_latest_deploy_tag (dev : Bool) (validate : Bool) (pre : Bool)
    (blocks : List ReleaseBlock) : Option String :=
  if dev then some "DEV"
  else
    match scan_blocks validate pre none blocks with
    | none => none
    | some v =>
      if v = "" then none
      else if validate && (pep440_parse v).isNone then none
      else some v

/-- Acceptance predicate of the spec's `fetchLatest` walk: the sanitized
tag parses and its pre-release status is compatible with the
allow-prerelease flag.  Stated from the spec's words for comparison with
the source-derived scan. -/
def tagAccept (pre : Bool) (v : String) : Bool :=
  match pep440_parse v with
  | some pv => !pv.rc.isSome || pre
  | none => false

/-- The spec's description of `fetchLatest`: first entry, in listing
order, whose sanitized tag is acceptable. -/
def firstValidCompatible (pre : Bool) (tags : List String) : Option String :=
  (tags.map _sanitize_github_version).find? (tagAccept pre)

/-- All tag texts of the page in listing order — anchored timeline
entries and formal entries alike: the "release listing" the claim
quantifies over. -/
def listing_tags : List ReleaseBlock → List String
  | [] => []
  | ReleaseBlock.timelineTags tags :: rest => tags.filterMap id ++ listing_tags rest
  | ReleaseBlock.formal tag _ _ :: rest => tag :: listing_tags rest

/-- The tag texts the scan actually considers: anchored timeline entries,
and formal entries only when they carry the badge selected by `pre`. -/
def consideredTags (pre : Bool) : List ReleaseBlock → List String
  | [] => []
  | ReleaseBlock.timelineTags tags :: rest => tags.filterMap id ++ consideredTags pre rest
  | ReleaseBlock.formal tag hasLatest hasPre :: rest =>
    if (if pre then hasPre else hasLatest) then tag :: consideredTags pre rest
    else consideredTags pre rest

/-! ### Retry loop of `_download_deployment_requirements` (app.py:1280-1292)

One iteration of the `while not valid_status` loop performs a full
download+unzip cycle (`_try_download_unizip_deployment_requirements`);
`o i` is the outcome of the cycle started when `total_tries = i`.  The
model returns the final `(valid_status, total_tries)` pair, so the second
component is the number of cycles performed. -/
def download_retry_loop (o : Nat → Bool) (valid : Bool) (tries : Nat) : Bool × Nat :=
  if valid then (valid, tries)
  else if 10 < tries then (valid, tries)
  else download_retry_loop o (o tries) (tries + 1)
termination_by 11 - tries
decreasing_by simp_wf; omega

/-- The loop as entered by `_download_deployment_requirements`:
`valid_status = False`, `total_tries = 0`. -/
def download_attempts (o : Nat → Bool) : Bool × Nat :=
  download_retry_loop o false 0

/-! ### `_chunk_read` inside `_download_file` (app.py:1397-1425)

The destination file is opened with mode `'ab'` — append — so whatever
bytes a previous (failed) attempt left behind stay in place and the new
bytes are appended after them.  `existing` is the byte content of the
target before the call, `contentLength` the `Content-Length` header
(`none` makes the function return before writing), `chunks` the successive
`response.read(chunk_size)` results (the stream ends with an empty
chunk). -/
def writeChunks (acc : List Nat) : List (List Nat) → List Nat
  | [] => acc
  | c :: cs => if c = [] then acc ++ c else writeChunks (acc ++ c) cs

/-- Byte content of the download target after `_chunk_read`. -/
def _chunk_read (existing : List Nat) (contentLength : Option Nat) (chunks : List (List Nat)) :
    List Nat :=
  match contentLength with
  | none => existing
  | some _ => writeChunks existing chunks

/-! ### Path helpers (app.py:108-114, 1207-1219, 486-522)

`os.path` is modelled in its posix flavor: `/` as separator,
`os.path.join` and `os.path.normpath` as below. -/

/-- `get_clean_name` (app.py:108-114): project name with spaces removed,
lowercased. -/
def get_clean_name (projectName : String) : String :=
  String.mk ((projectName.data.filter (fun c => c ≠ ' ')).map Char.toLower)

/-- `os.path.join(a, b)` (posix): `b` wins when absolute; otherwise `a`
and `b` glued with exactly one separator. -/
def path_join (a b : String) : String :=
  if b.data.head? = some '/' then b
  else if a = "" then b
  else if a.data.getLast? = some '/' then String.mk (a.data ++ b.data)
  else String.mk (a.data ++ '/' :: b.data)

/-- The `..` path component. -/
def dotdot : List Char := ['.', '.']

/-- One step of `posixpath.normpath`'s component loop: skip empty and `.`
components, append normal components, and let `..` either stay (when it
cannot be resolved) or pop the previous component. -/
def normStep (rooted : Bool) (acc : List (List Char)) (c : List Char) : List (List Char) :=
  if c = [] ∨ c = ['.'] then acc
  else if c ≠ dotdot ∨ (¬rooted ∧ acc = []) ∨ acc.getLast? = some dotdot then acc ++ [c]
  else acc.dropLast

/-- Python `path.split('/')` on character lists. -/
def splitSlash : List Char → List (List Char)
  | [] => [[]]
  | c :: cs =>
    if c = '/' then [] :: splitSlash cs
    else
      match splitSlash cs with
      | [] => [[c]]
      | p :: ps => (c :: p) :: ps

/-- Python `'/'.join(comps)` on character lists. -/
def joinSlash : List (List Char) → List Char
  | [] => []
  | [p] => p
  | p :: q :: ps => p ++ '/' :: joinSlash (q :: ps)

/-- Number of leading slashes `posixpath.normpath` preserves: two exactly
when the path starts with `//` but not `///`, one for any other absolute
path, zero otherwise. -/
def slashCount (l : List Char) : Nat :=
  if l.take 1 = ['/'] then
    (if l.take 2 = ['/', '/'] ∧ ¬l.take 3 = ['/', '/', '/'] then 2 else 1)
  else 0

/-- Slash prefix, component normalization and rejoin of
`posixpath.normpath` (everything except the empty-result fallbacks). -/
def normpathCore (l : List Char) : List Char :=
  List.replicate (slashCount l) '/' ++
    joinSlash ((splitSlash l).foldl (normStep (slashCount l ≠ 0)) [])

/-- `posixpath.normpath` on character lists. -/
def normpathList (l : List Char) : List Char :=
  if l = [] then ['.']
  else if normpathCore l = [] then ['.'] else normpathCore l

/-- `os.path.normpath` (posix flavor). -/
def normpath (p : String) : String := String.mk (normpathList p.data)

/-- `_get_venv_folder_path` (app.py:1207-1219): `None` when no install
path is set; the normalized install path itself in dev mode; otherwise
the normalized join of the install path with the clean project name. -/
def _get_venv_folder_path (installPath projectName : String) (dev : Bool) : Option String :=
  if installPath = "" then none
  else if dev then some (normpath installPath)
  else some (normpath (path_join installPath (get_clean_name projectName)))

/-- The `dirs_to_remove` list built by `_on_uninstall` (app.py:497): the
single directory `install_path` joined with the clean project name. -/
def uninstall_dirs_to_remove (installPath projectName : String) : List String :=
  [path_join installPath (get_clean_name projectName)]

/-! ### Manifest search of `_download_deployment_requirements`
(app.py:1294-1307)

`walk` is the `os.walk` sequence of the extraction directory as
`(root, files)` pairs in walk order.  The inner `break` leaves only the
files loop, so a later directory's match overwrites an earlier one. -/

/-- The `requirement_path` value after the walk loop. -/
def walk_find_requirements (walk : List (String × List String)) (reqName : String) :
    Option String :=
  walk.foldl
    (fun acc entry =>
      match entry.2.find? (fun n => n = reqName) with
      | some n => some (path_join entry.1 n)
      | none => acc)
    none

/-- The manifest-search tail of `_download_deployment_requirements`:
`False` (here `Except.error ()`) when no requirements file was recorded,
the recorded path otherwise. -/
def download_requirements_manifest (walk : List (String × List String)) (reqName : String) :
    Except Unit String :=
  match walk_find_requirements walk reqName with
  | none => Except.error ()
  | some p => if p = "" then Except.error () else Except.ok p

/-- The spec's manifest rule, stated from its words: the first file with
the manifest name encountered in the recursive walk order. -/
def first_manifest_spec (walk : List (String × List String)) (reqName : String) :
    Option String :=
  walk.findSome? (fun entry => (entry.2.find? (fun n => n = reqName)).map (path_join entry.1))

/-- What the source actually records: the first matching file inside the
last directory (in walk order) that contains one. -/
def last_manifest_spec (walk : List (String × List String)) (reqName : String) :
    Option String :=
  (walk.filterMap (fun entry => (entry.2.find? (fun n => n = reqName)).map (path_join entry.1))).getLast?

/-! ### The stored-path check in `_load` (app.py:700-706)

The block commented "We check that stored config path exits" reads
`self._get_app_config(self._install_env_var)` — the configuration bundled
with the executable (`_read_config`, app.py:185-210), not the user config
store — and clears the store entry only when that bundled value names a
missing directory.  `appConfig` is the bundled data, `file` the user
store, `isdir` the filesystem's directory test. -/

/-- `_get_app_config` (app.py:212-222): `None` when the bundled config is
empty, otherwise `data.get(name)`. -/
def _get_app_config (appConfig : List (String × String)) (name : String) : Option String :=
  if appConfig = [] then none else appConfig.lookup name

/-- The stored-path check block of `_load`, returning the (possibly
rewritten) user config store. -/
def load_stored_path_check (appConfig : List (String × String)) (file : ConfigFile)
    (isdir : String → Bool) (envVar : String) : Except Unit ConfigFile :=
  match _get_app_config appConfig envVar with
  | none => Except.ok file
  | some s =>
    if s ≠ "" ∧ ¬ isdir s then
      match _set_config envVar "" file with
      | Except.ok (f2, _) => Except.ok f2
      | Except.error e => Except.error e
    else Except.ok file

/-! ## Theorems -/

/-- Setting a key and looking it up again yields the written value. -/
theorem lookup_setKey (m : List (String × String)) (k v : String) :
    (setKey m k v).lookup k = some v := by
  induction m with
  | nil => simp [setKey, List.lookup]
  | cons hd tl ih =>
    obtain ⟨k1, v1⟩ := hd
    by_cases h : k1 = k
    · simp [setKey, h, List.lookup]
    · simp only [setKey, if_neg h, List.lookup]
      have : (k == k1) = false := by
        simp [beq_iff_eq]
        exact fun hk => h hk.symm
      simp [this, ih]

/-- C6: reading the config file returns the empty mapping when the file is
absent or its content is not valid JSON, raising no error (the model is a
total function), and returns the stored mapping when the file holds a
valid JSON object. -/
theorem get_config_data_robust (m : List (String × String)) (e : Unit) :
    get_config_data none = PyJson.jobj [] ∧
    get_config_data (some (Except.error e)) = PyJson.jobj [] ∧
    get_config_data (some (Except.ok (PyJson.jobj m))) = PyJson.jobj m :=
  ⟨rfl, rfl, rfl⟩

/-- C7: on an existing store file whose load outcome is a JSON object or a
load error (the states `_setup_config` ever produces), writing `(k, v)`
with `_set_config` and reading back with `get_config_data` yields a
mapping whose value at `k` is `v` — for every value, the empty string
included. -/
theorem set_config_roundtrip (k v : String) (r : Except Unit PyJson)
    (h : r ≠ Except.ok PyJson.jother) :
    ∃ f2 : ConfigFile, _set_config k v (some r) = Except.ok (f2, true) ∧
      config_lookup (get_config_data f2) k = some v := by
  match r with
  | Except.error e =>
    exact ⟨some (Except.ok (PyJson.jobj (setKey [] k v))), rfl, by
      simp [get_config_data, config_lookup, lookup_setKey]⟩
  | Except.ok (PyJson.jobj m) =>
    exact ⟨some (Except.ok (PyJson.jobj (setKey m k v))), rfl, by
      simp [get_config_data, config_lookup, lookup_setKey]⟩
  | Except.ok PyJson.jother => exact absurd rfl h

/-- C7 witness: the round trip at the concrete store `{"tag": "1.0.0"}`
with the empty string as value. -/
theorem set_config_roundtrip_witness :
    ∃ f2 : ConfigFile,
      _set_config "tag" "" (some (Except.ok (PyJson.jobj [("tag", "1.0.0")]))) =
          Except.ok (f2, true) ∧
      config_lookup (get_config_data f2) "tag" = some "" :=
  set_config_roundtrip "tag" "" (Except.ok (PyJson.jobj [("tag", "1.0.0")])) (by simp)

/-- C9: `_set_config` on an absent store file leaves the file state
untouched and returns `False`; conversely a call that returns `True`
can only have happened on an existing file. -/
theorem set_config_requires_existing_file :
    (∀ k v : String, _set_config k v none = Except.ok (none, false)) ∧
    (∀ (k v : String) (f f2 : ConfigFile),
      _set_config k v f = Except.ok (f2, true) → f ≠ none) := by
  refine ⟨fun k v => rfl, fun k v f f2 h => ?_⟩
  match f with
  | some r => exact Option.some_ne_none r
  | none => simp [_set_config] at h

/-- C9 witness: a successful write on the concrete freshly created empty
store, whose existence the theorem then certifies. -/
theorem set_config_requires_existing_file_witness :
    (some (Except.ok (PyJson.jobj [])) : ConfigFile) ≠ none :=
  set_config_requires_existing_file.2 "k" "v" (some (Except.ok (PyJson.jobj [])))
    (some (Except.ok (PyJson.jobj [("k", "v")]))) rfl

/-- Whatever `writeChunks` does, the bytes already in the target stay as a
prefix: the file was opened in append mode. -/
theorem writeChunks_append (chunks : List (List Nat)) :
    ∀ acc : List Nat, ∃ w, writeChunks acc chunks = acc ++ w := by
  induction chunks with
  | nil => exact fun acc => ⟨[], by simp [writeChunks]⟩
  | cons c cs ih =>
    intro acc
    by_cases hc : c = []
    · exact ⟨c, by simp [writeChunks, hc]⟩
    · obtain ⟨w, hw⟩ := ih (acc ++ c)
      exact ⟨c ++ w, by simp [writeChunks, hc, hw]⟩

/-- C3: `_chunk_read` opens its target with `'ab'`, so bytes left by a
failed earlier attempt survive as a prefix of every later attempt's
result; concretely, a retry that fetches `[3, 4]` into a target still
holding the stale bytes `[1, 2]` produces `[1, 2, 3, 4]`, not `[3, 4]`. -/
theorem chunk_read_keeps_stale_bytes :
    (∀ (existing : List Nat) (hdr : Option Nat) (chunks : List (List Nat)),
      ∃ w, _chunk_read existing hdr chunks = existing ++ w) ∧
    _chunk_read [1, 2] (some 4) [[3, 4], []] = [1, 2, 3, 4] ∧
    ([1, 2, 3, 4] : List Nat) ≠ [3, 4] := by
  refine ⟨fun existing hdr chunks => ?_, by decide, by decide⟩
  match hdr with
  | none => exact ⟨[], by simp [_chunk_read]⟩
  | some n => exact writeChunks_append chunks existing

/-- C8: with a bundled executable config that lacks the install
environment variable (here: empty) and a user store whose persisted
install path names a missing directory, the stored-path check of `_load`
leaves the store untouched — the block reads `_get_app_config`, not the
store — so the stale entry is not cleared to the empty string. -/
theorem load_check_reads_wrong_config :
    load_stored_path_check []
        (some (Except.ok (PyJson.jobj [("tools_install", "/missing/dir")])))
        (fun _ => false) "tools_install" =
      Except.ok (some (Except.ok (PyJson.jobj [("tools_install", "/missing/dir")]))) ∧
    config_lookup
        (get_config_data (some (Except.ok (PyJson.jobj [("tools_install", "/missing/dir")]))))
        "tools_install" = some "/missing/dir" ∧
    ("/missing/dir" : String) ≠ "" :=
  ⟨rfl, by decide, by decide⟩

/-- The inner `for` loop over a tags block, under validation, finds the
first anchored entry whose sanitized tag is acceptable, reporting
`break_out` exactly when it found one. -/
theorem scan_tags_entries_eq_find (pre : Bool) (tags : List (Option String)) :
    scan_tags_entries true pre tags =
      match ((tags.filterMap id).map _sanitize_github_version).find? (tagAccept pre) with
      | some v => (some v, true)
      | none => (none, false) := by
  induction tags with
  | nil => rfl
  | cons t rest ih =>
    cases t with
    | none => simpa [scan_tags_entries] using ih
    | some t =>
      have hfm : ((some t :: rest).filterMap id) = t :: rest.filterMap id := by simp
      rw [hfm, List.map_cons]
      simp only [scan_tags_entries, if_true]
      cases hp : pep440_parse (_sanitize_github_version t) with
      | none =>
        rw [List.find?_cons_of_neg _ (by simp [tagAccept, hp])]
        simpa [hp] using ih
      | some pv =>
        have hta : tagAccept pre (_sanitize_github_version t) = (!pv.rc.isSome || pre) := by
          simp [tagAccept, hp]
        cases hb : (!pv.rc.isSome || pre) with
        | true =>
          rw [List.find?_cons_of_pos _ (by rw [hta, hb])]
          simp only [hp]
          rw [hb]
          simp
        | false =>
          rw [List.find?_cons_of_neg _ (by rw [hta, hb]; simp)]
          simp only [hp]
          rw [hb]
          simpa using ih

/-- The while loop under validation equals a first-match search over the
sanitized tags it considers — anchored timeline entries plus badge-gated
formal entries. -/
theorem scan_blocks_eq_find (pre : Bool) (blocks : List ReleaseBlock) :
    scan_blocks true pre none blocks =
      ((consideredTags pre blocks).map _sanitize_github_version).find? (tagAccept pre) := by
  induction blocks with
  | nil => rfl
  | cons b rest ih =>
    cases b with
    | timelineTags tags =>
      simp only [scan_blocks, consideredTags, List.map_append, List.find?_append]
      rw [scan_tags_entries_eq_find pre tags]
      cases hf : ((tags.filterMap id).map _sanitize_github_version).find? (tagAccept pre) with
      | some v => simp
      | none => simpa using ih
    | formal tag hasLatest hasPre =>
      simp only [scan_blocks, consideredTags]
      by_cases hlab : (if pre then hasPre else hasLatest) = true
      · rw [if_pos hlab, if_pos hlab, List.map_cons]
        simp only [if_true]
        cases hp : pep440_parse (_sanitize_github_version tag) with
        | none =>
          rw [List.find?_cons_of_neg _ (by simp [tagAccept, hp])]
          simpa [hp] using ih
        | some pv =>
          have hta : tagAccept pre (_sanitize_github_version tag) = (!pv.rc.isSome || pre) := by
            simp [tagAccept, hp]
          cases hb : (!pv.rc.isSome || pre) with
          | true =>
            rw [List.find?_cons_of_pos _ (by rw [hta, hb])]
            simp only [hp]
            rw [hb]
            simp
          | false =>
            rw [List.find?_cons_of_neg _ (by rw [hta, hb]; simp)]
            simp only [hp]
            rw [hb]
            simpa using ih
      · rw [if_neg hlab, if_neg hlab]
        exact ih

/-- The empty string is not a valid version. -/
theorem pep440_parse_empty : pep440_parse "" = none := rfl

/-- C5 (amended): with validation, `_get_latest_deploy_tag` returns the
first entry, in listing order, of the tags the scan actually considers —
anchored entries of tag-timeline blocks, plus formal release entries
only when they carry the badge selected by the allow-prerelease flag —
whose sanitized tag parses as a valid version with compatible
pre-release status; entries whose tags fail to parse are logged and
skipped without aborting the scan.  A formal entry without the selected
badge is skipped even when its tag is valid and compatible. -/
theorem get_latest_deploy_tag_gated_first_valid (pre : Bool) (blocks : List ReleaseBlock) :
    _get_latest_deploy_tag false true pre blocks =
      firstValidCompatible pre (consideredTags pre blocks) := by
  have hscan := scan_blocks_eq_find pre blocks
  unfold _get_latest_deploy_tag firstValidCompatible
  rw [if_neg (by simp), hscan]
  cases hf : ((consideredTags pre blocks).map _sanitize_github_version).find? (tagAccept pre) with
  | none => rfl
  | some v =>
    have hacc : tagAccept pre v = true := List.find?_some hf
    obtain ⟨pv, hpv⟩ : ∃ pv, pep440_parse v = some pv := by
      unfold tagAccept at hacc
      cases hp : pep440_parse v with
      | none => rw [hp] at hacc; cases hacc
      | some pv => exact ⟨pv, rfl⟩
    have hne : v ≠ "" := by
      intro h0
      rw [h0, pep440_parse_empty] at hpv
      cases hpv
    simp [hne, hpv]

/-- C5 counterexample: on the listing consisting of a formal release
`2.1.0` without the `label-latest` badge followed by a tags block
containing `2.0.0` (with `pre = false`), the code skips the unlabeled
formal entry — despite its tag being valid and compatible — and returns
`2.0.0`, while the claim's first-valid-compatible rule over the listing
names `2.1.0`. -/
theorem get_latest_deploy_tag_label_counterexample :
    _get_latest_deploy_tag false true false
        [ReleaseBlock.formal "2.1.0" false false,
          ReleaseBlock.timelineTags [some "2.0.0"]] = some "2.0.0" ∧
    firstValidCompatible false
        (listing_tags
          [ReleaseBlock.formal "2.1.0" false false,
            ReleaseBlock.timelineTags [some "2.0.0"]]) = some "2.1.0" ∧
    (some "2.0.0" : Option String) ≠ some "2.1.0" := by
  refine ⟨by decide, by decide, by decide⟩

/-- The walk loop's fold keeps the match from the last directory that has
one: a later directory's match overwrites the accumulator. -/
theorem walk_foldl_last (reqName : String) (walk : List (String × List String)) :
    ∀ acc : Option String,
      walk.foldl
          (fun acc entry =>
            match entry.2.find? (fun n => n = reqName) with
            | some n => some (path_join entry.1 n)
            | none => acc)
          acc =
        match
          (walk.filterMap
              (fun entry => (entry.2.find? (fun n => n = reqName)).map (path_join entry.1))).getLast?
        with
        | some x => some x
        | none => acc := by
  induction walk with
  | nil => intro acc; rfl
  | cons d t ih =>
    intro acc
    simp only [List.foldl_cons]
    rw [ih]
    cases hfind : d.2.find? (fun n => n = reqName) with
    | none => simp [List.filterMap_cons, hfind]
    | some n =>
      simp only [List.filterMap_cons, hfind, Option.map_some']
      cases hfl :
          t.filterMap
            (fun entry => (entry.2.find? (fun n => n = reqName)).map (path_join entry.1)) with
      | nil => simp
      | cons h2 t2 =>
        rw [List.getLast?_cons_cons]
        cases hg2 : (h2 :: t2).getLast? with
        | none => exact absurd (List.getLast?_eq_none_iff.mp hg2) (by simp)
        | some x => rfl

/-- C4 (amended): the recorded requirements path is the first file with
the manifest name inside the last directory (in walk order) that contains
one — later matches overwrite earlier ones, since the `break` only leaves
the inner files loop — and when no directory contains such a file the
operation fails. -/
theorem download_requirements_last_match (walk : List (String × List String)) (reqName : String) :
    walk_find_requirements walk reqName = last_manifest_spec walk reqName ∧
    (walk_find_requirements walk reqName = none →
      download_requirements_manifest walk reqName = Except.error ()) := by
  have h := walk_foldl_last reqName walk none
  constructor
  · unfold walk_find_requirements last_manifest_spec
    rw [h]
    cases (walk.filterMap
        (fun entry => (entry.2.find? (fun n => n = reqName)).map (path_join entry.1))).getLast? with
    | none => rfl
    | some x => rfl
  · intro h0
    unfold download_requirements_manifest
    rw [h0]

/-- C4 witness: the failure branch on the empty walk. -/
theorem download_requirements_last_match_witness :
    download_requirements_manifest [] "requirements.txt" = Except.error () :=
  (download_requirements_last_match [] "requirements.txt").2 rfl

/-- C4 counterexample: with the manifest present in two directories `a`
and `b` (in that walk order), the code records `b/requirements.txt`,
while the first-match rule of the claim names `a/requirements.txt`. -/
theorem walk_requirements_counterexample :
    walk_find_requirements [("a", ["requirements.txt"]), ("b", ["requirements.txt"])]
        "requirements.txt" = some "b/requirements.txt" ∧
    first_manifest_spec [("a", ["requirements.txt"]), ("b", ["requirements.txt"])]
        "requirements.txt" = some "a/requirements.txt" ∧
    walk_find_requirements [("a", ["requirements.txt"]), ("b", ["requirements.txt"])]
        "requirements.txt" ≠
      first_manifest_spec [("a", ["requirements.txt"]), ("b", ["requirements.txt"])]
        "requirements.txt" := by
  refine ⟨by decide, by decide, by decide⟩

/-- Unfolding equation of the retry loop. -/
theorem download_retry_loop_eq (o : Nat → Bool) (valid : Bool) (tries : Nat) :
    download_retry_loop o valid tries =
      if valid then (valid, tries)
      else if 10 < tries then (valid, tries)
      else download_retry_loop o (o tries) (tries + 1) := by
  rw [download_retry_loop]

/-- The final `total_tries` never exceeds `max tries 11` when the loop is
entered with counter `tries`. -/
theorem download_retry_loop_le (o : Nat → Bool) :
    ∀ (k tries : Nat), 11 ≤ tries + k →
      ∀ valid, (download_retry_loop o valid tries).2 ≤ max tries 11 := by
  intro k
  induction k with
  | zero =>
    intro tries h valid
    rw [download_retry_loop_eq]
    have h10 : 10 < tries := by omega
    by_cases hv : valid
    · simp [hv]
    · simp [hv, h10]
  | succ k ih =>
    intro tries h valid
    rw [download_retry_loop_eq]
    by_cases hv : valid
    · simp [hv]
    · simp only [hv, if_false, Bool.false_eq_true]
      by_cases hg : 10 < tries
      · simp [hg]
      · rw [if_neg hg]
        have hrec := ih (tries + 1) (by omega) (o tries)
        have hmax : max (tries + 1) 11 = 11 := Nat.max_eq_right (by omega)
        rw [hmax] at hrec
        exact le_trans hrec (le_max_right tries 11)

/-- When every cycle fails, the loop runs its counter to `max tries 11`
and ends with `valid_status` still false. -/
theorem download_retry_loop_allfail (o : Nat → Bool) (ho : ∀ i, o i = false) :
    ∀ (k tries : Nat), 11 ≤ tries + k →
      download_retry_loop o false tries = (false, max tries 11) := by
  intro k
  induction k with
  | zero =>
    intro tries h
    rw [download_retry_loop_eq]
    have h10 : 10 < tries := by omega
    simp [h10, Nat.max_eq_left (by omega : 11 ≤ tries)]
  | succ k ih =>
    intro tries h
    rw [download_retry_loop_eq]
    by_cases hg : 10 < tries
    · simp [hg, Nat.max_eq_left (by omega : 11 ≤ tries)]
    · rw [if_neg (by simp), if_neg hg, ho tries, ih (tries + 1) (by omega)]
      have : max (tries + 1) 11 = 11 := Nat.max_eq_right (by omega)
      rw [this, Nat.max_eq_right (by omega : tries ≤ 11)]

/-- C2 (amended): the fetch loop of `_download_deployment_requirements`
performs at most 11 full download+extract cycles (the guard
`total_tries > 10` admits cycles at counts 0 through 10); when every
cycle fails it terminates after exactly 11 cycles with `valid_status`
false, so the function returns failure instead of retrying further or
looping forever. -/
theorem download_requirements_retry_bound (o : Nat → Bool) :
    (download_attempts o).2 ≤ 11 ∧
    ((∀ i, o i = false) → download_attempts o = (false, 11)) := by
  constructor
  · have := download_retry_loop_le o 11 0 (by omega) false
    simpa [download_attempts] using this
  · intro ho
    have := download_retry_loop_allfail o ho 11 0 (by omega)
    simpa [download_attempts] using this

/-- C2 witness: the always-failing download performs 11 cycles and ends
in failure. -/
theorem download_requirements_retry_bound_witness :
    download_attempts (fun _ => false) = (false, 11) :=
  (download_requirements_retry_bound (fun _ => false)).2 (fun _ => rfl)

/-- C2 counterexample: when every cycle fails, the loop performs 11
cycles, not at most 10 as the claim states. -/
theorem download_requirements_retry_counterexample :
    (download_attempts (fun _ => false)).2 = 11 ∧
    ¬ (download_attempts (fun _ => false)).2 ≤ 10 := by
  have h := download_retry_loop_allfail (fun _ => false) (fun _ => rfl) 11 0 (by omega)
  have h2 : download_attempts (fun _ => false) = (false, 11) := by
    simpa [download_attempts] using h
  rw [h2]
  omega

/-- C1 (amended): on a store holding the object `m`, deploy-tag
resolution is exception-free when the persisted tag is absent or empty —
the latest value is then adopted verbatim, unparseable or missing
included — but when a persisted tag is present, `_get_deploy_tag` raises
exactly when the persisted tag, or the latest result (a missing latest
included), fails to parse as a version; no upgrade comparison is reached
and no fallback to the known-valid value occurs. -/
theorem get_deploy_tag_exception_behavior (m : List (String × String)) (latest : Option String)
    (accept : Bool) :
    ((m.lookup "tag").getD "" = "" →
      _get_deploy_tag false (some (Except.ok (PyJson.jobj m))) latest accept =
        Except.ok (latest, some (Except.ok (PyJson.jobj m)))) ∧
    ((m.lookup "tag").getD "" ≠ "" →
      ((∃ e, _get_deploy_tag false (some (Except.ok (PyJson.jobj m))) latest accept =
          Except.error e) ↔
        (pep440_parse ((m.lookup "tag").getD "") = none ∨ latest.bind pep440_parse = none))) := by
  constructor
  · intro h0
    unfold _get_deploy_tag
    simp [get_config_data, h0]
  · intro hne
    unfold _get_deploy_tag
    simp only [Bool.false_eq_true, if_false, get_config_data]
    rw [if_neg hne]
    cases hp : pep440_parse ((m.lookup "tag").getD "") with
    | none => exact iff_of_true ⟨(), rfl⟩ (Or.inl rfl)
    | some dv =>
      cases latest with
      | none => exact iff_of_true ⟨(), rfl⟩ (Or.inr rfl)
      | some ls =>
        cases hl : pep440_parse ls with
        | none => exact iff_of_true ⟨(), by simp [hl]⟩ (Or.inr (by simp [hl]))
        | some lv =>
          apply iff_of_false
          · rintro ⟨e, he⟩
            simp [hl, _set_config, get_config_data] at he
            split at he
            · split at he
              · exact Except.noConfusion he
              · exact Except.noConfusion he
            · exact Except.noConfusion he
          · rintro (h1 | h2)
            · exact Option.noConfusion h1
            · simp [hl] at h2

/-- C1 witness: a parseable persisted tag `1.0.0` and a missing latest
result make resolution raise. -/
theorem get_deploy_tag_exception_behavior_witness :
    ∃ e, _get_deploy_tag false (some (Except.ok (PyJson.jobj [("tag", "1.0.0")]))) none true =
        Except.error e :=
  ((get_deploy_tag_exception_behavior [("tag", "1.0.0")] none true).2 (by decide)).mpr
    (Or.inr rfl)

/-- C1 counterexample: with the unparseable persisted tag `abc` and the
perfectly valid latest tag `1.0.0`, `_get_deploy_tag` raises
(`Version('abc')` raises `InvalidVersion` with no handler) instead of
proceeding with the known-valid value. -/
theorem get_deploy_tag_crash_counterexample :
    _get_deploy_tag false (some (Except.ok (PyJson.jobj [("tag", "abc")]))) (some "1.0.0") true =
      Except.error () := by
  rfl

/-- `splitSlash` never returns the empty list. -/
theorem splitSlash_ne_nil : ∀ l : List Char, splitSlash l ≠ [] := by
  intro l
  induction l with
  | nil => simp [splitSlash]
  | cons c cs ih =>
    by_cases hc : c = '/'
    · simp [splitSlash, hc]
    · simp only [splitSlash, if_neg hc]
      cases h : splitSlash cs with
      | nil => exact absurd h ih
      | cons p ps => simp

/-- Components produced by `splitSlash` contain no separator. -/
theorem splitSlash_no_slash : ∀ (l : List Char), ∀ p ∈ splitSlash l, '/' ∉ p := by
  intro l
  induction l with
  | nil => intro p hp; simp [splitSlash] at hp; simp [hp]
  | cons c cs ih =>
    intro p hp
    by_cases hc : c = '/'
    · simp only [splitSlash, if_pos hc, List.mem_cons] at hp
      rcases hp with hp | hp
      · simp [hp]
      · exact ih p hp
    · simp only [splitSlash, if_neg hc] at hp
      cases h : splitSlash cs with
      | nil => exact absurd h (splitSlash_ne_nil cs)
      | cons q qs =>
        rw [h, List.mem_cons] at hp
        rcases hp with hp | hp
        · subst hp
          intro hmem
          rcases List.mem_cons.mp hmem with hmem | hmem
          · exact hc hmem.symm
          · exact ih q (h ▸ List.mem_cons_self q qs) hmem
        · exact ih p (h ▸ List.mem_cons_of_mem q hp)

/-- A separator-free list splits into itself. -/
theorem splitSlash_of_no_slash : ∀ (p : List Char), '/' ∉ p → splitSlash p = [p] := by
  intro p
  induction p with
  | nil => intro _; rfl
  | cons c cs ih =>
    intro h
    have hc : c ≠ '/' := fun hcc => h (by simp [hcc])
    have hcs : '/' ∉ cs := fun hmem => h (List.mem_cons_of_mem c hmem)
    simp only [splitSlash, if_neg hc, ih hcs]

/-- Splitting a separator-free prefix glued with `/` peels the prefix off. -/
theorem splitSlash_append_slash :
    ∀ (p : List Char), '/' ∉ p → ∀ t, splitSlash (p ++ '/' :: t) = p :: splitSlash t := by
  intro p
  induction p with
  | nil => intro _ t; simp [splitSlash]
  | cons c cs ih =>
    intro h t
    have hc : c ≠ '/' := fun hcc => h (by simp [hcc])
    have hcs : '/' ∉ cs := fun hmem => h (List.mem_cons_of_mem c hmem)
    simp only [List.cons_append, splitSlash, if_neg hc, List.append_eq]
    rw [ih hcs t]

/-- `splitSlash` inverts `joinSlash` on nonempty separator-free components. -/
theorem splitSlash_joinSlash :
    ∀ (ps : List (List Char)), ps ≠ [] → (∀ p ∈ ps, '/' ∉ p) →
      splitSlash (joinSlash ps) = ps := by
  intro ps
  induction ps with
  | nil => intro h; exact absurd rfl h
  | cons p qs ih =>
    intro _ hmem
    cases qs with
    | nil => exact splitSlash_of_no_slash p (hmem p (List.mem_cons_self p []))
    | cons q rs =>
      have hp : '/' ∉ p := hmem p (List.mem_cons_self p (q :: rs))
      rw [joinSlash, splitSlash_append_slash p hp,
        ih (by simp) (fun x hx => hmem x (List.mem_cons_of_mem p hx))]

/-- Splitting after a block of leading slashes yields that many empty
components. -/
theorem splitSlash_replicate_slash :
    ∀ (s : Nat) (x : List Char),
      splitSlash (List.replicate s '/' ++ x) = List.replicate s [] ++ splitSlash x := by
  intro s
  induction s with
  | zero => intro x; rfl
  | succ n ih =>
    intro x
    simp [List.replicate_succ, splitSlash, ih x]

/-- `joinSlash` of a nonempty head component starts with that component. -/
theorem joinSlash_cons (p : List Char) (qs : List (List Char)) :
    ∃ t, joinSlash (p :: qs) = p ++ t := by
  cases qs with
  | nil => exact ⟨[], by simp [joinSlash]⟩
  | cons q rs => exact ⟨'/' :: joinSlash (q :: rs), rfl⟩

/-- A normalized path component: nonempty, not `.`, separator-free. -/
def GoodComp (c : List Char) : Prop := c ≠ [] ∧ c ≠ ['.'] ∧ '/' ∉ c

/-- Shape invariant of `normpath`'s component stack: every component is
normalized, and the stack is a (possibly empty) block of leading `..`
components followed by `..`-free components — with no `..` at all on
rooted paths. -/
def GoodStack (rooted : Bool) (acc : List (List Char)) : Prop :=
  (∀ c ∈ acc, GoodComp c) ∧
  ∃ k good, acc = List.replicate k dotdot ++ good ∧ dotdot ∉ good ∧ (rooted = true → k = 0)

/-- The empty stack is well-shaped. -/
theorem goodStack_nil (rooted : Bool) : GoodStack rooted [] :=
  ⟨fun c hc => absurd hc (List.not_mem_nil c), 0, [], rfl, List.not_mem_nil dotdot, fun _ => rfl⟩

/-- The last element of a replicate-and-suffix stack whose suffix avoids
`..` can be `..` only when the suffix is empty. -/
theorem good_suffix_of_getLast (k : Nat) (good : List (List Char)) (hgd : dotdot ∉ good)
    (h : (List.replicate k dotdot ++ good).getLast? = some dotdot) : good = [] := by
  cases hg : good with
  | nil => rfl
  | cons g gs =>
    exfalso
    rw [hg, List.getLast?_append_of_ne_nil _ (by simp)] at h
    have hmem : dotdot ∈ g :: gs := by
      rcases List.mem_getLast?_eq_getLast h with ⟨hne, heq⟩
      exact heq ▸ List.getLast_mem hne
    exact hgd (hg ▸ hmem)

/-- The last element of a nonempty block of `..` components is `..`. -/
theorem getLast_replicate_dots (k : Nat) (hk : k ≠ 0) :
    (List.replicate k dotdot).getLast? = some dotdot := by
  cases k with
  | zero => exact absurd rfl hk
  | succ n =>
    rw [List.replicate_succ', List.getLast?_append_of_ne_nil _ (by simp)]
    rfl

/-- `normStep` preserves the stack invariant on separator-free input
components. -/
theorem normStep_good (rooted : Bool) (acc : List (List Char)) (c : List Char)
    (hacc : GoodStack rooted acc) (hc : '/' ∉ c) :
    GoodStack rooted (normStep rooted acc c) := by
  obtain ⟨hcomp, k, good, hshape, hgd, hrk⟩ := hacc
  unfold normStep
  by_cases h1 : c = [] ∨ c = ['.']
  · rw [if_pos h1]
    exact ⟨hcomp, k, good, hshape, hgd, hrk⟩
  · rw [if_neg h1]
    push_neg at h1
    obtain ⟨hne, hnd⟩ := h1
    by_cases h2 : c ≠ dotdot ∨ (¬rooted = true ∧ acc = []) ∨ acc.getLast? = some dotdot
    · rw [if_pos h2]
      have hcomps : ∀ x ∈ acc ++ [c], GoodComp x := by
        intro x hx
        rcases List.mem_append.mp hx with hx | hx
        · exact hcomp x hx
        · rw [List.mem_singleton] at hx
          subst hx
          exact ⟨hne, hnd, hc⟩
      refine ⟨hcomps, ?_⟩
      by_cases hcd : c = dotdot
      · subst hcd
        rcases h2 with h2 | h2 | h2
        · exact absurd rfl h2
        · obtain ⟨hr, ha⟩ := h2
          subst ha
          exact ⟨1, [], by simp [List.replicate_succ], by simp,
            fun hroot => absurd hroot hr⟩
        · have hgnil : good = [] := good_suffix_of_getLast k good hgd (hshape ▸ h2)
          subst hgnil
          refine ⟨k + 1, [], ?_, by simp, ?_⟩
          · rw [hshape]
            simp [List.replicate_succ']
          · intro hroot
            exfalso
            have hk0 := hrk hroot
            subst hk0
            rw [hshape] at h2
            simp at h2
      · exact ⟨k, good ++ [c], by rw [hshape, List.append_assoc],
          fun hmem => by
            rcases List.mem_append.mp hmem with hmem | hmem
            · exact hgd hmem
            · rw [List.mem_singleton] at hmem
              exact hcd hmem.symm, hrk⟩
    · rw [if_neg h2]
      push_neg at h2
      obtain ⟨hcd, hra, hlast⟩ := h2
      refine ⟨fun x hx => hcomp x (List.mem_of_mem_dropLast hx), ?_⟩
      cases hg : good with
      | nil =>
        subst hg
        have hk0 : k = 0 := by
          by_contra hk0
          exact hlast (by rw [hshape, List.append_nil]; exact getLast_replicate_dots k hk0)
        subst hk0
        rw [hshape]
        exact ⟨0, [], by simp, by simp, fun _ => rfl⟩
      | cons g gs =>
        refine ⟨k, good.dropLast, ?_, fun hmem => hgd (List.mem_of_mem_dropLast hmem), hrk⟩
        rw [hshape, hg, List.dropLast_append_cons]

/-- Folding `normStep` over separator-free components keeps the stack
invariant. -/
theorem foldl_normStep_good (rooted : Bool) :
    ∀ (cs : List (List Char)), (∀ c ∈ cs, '/' ∉ c) →
      ∀ acc, GoodStack rooted acc → GoodStack rooted (cs.foldl (normStep rooted) acc) := by
  intro cs
  induction cs with
  | nil => intro _ acc hacc; exact hacc
  | cons c rest ih =>
    intro hmem acc hacc
    rw [List.foldl_cons]
    exact ih (fun x hx => hmem x (List.mem_cons_of_mem c hx))
      (normStep rooted acc c) (normStep_good rooted acc c hacc (hmem c (List.mem_cons_self c rest)))

/-- Empty and `.` components are skipped by the fold. -/
theorem foldl_normStep_skip (rooted : Bool) :
    ∀ (cs : List (List Char)), (∀ c ∈ cs, c = [] ∨ c = ['.']) →
      ∀ acc, cs.foldl (normStep rooted) acc = acc := by
  intro cs
  induction cs with
  | nil => intro _ acc; rfl
  | cons c rest ih =>
    intro hmem acc
    rw [List.foldl_cons]
    have hc := hmem c (List.mem_cons_self c rest)
    rw [show normStep rooted acc c = acc from by unfold normStep; rw [if_pos hc]]
    exact ih (fun x hx => hmem x (List.mem_cons_of_mem c hx)) acc

/-- Components that are nonempty and neither `.` nor `..` are appended
verbatim by the fold. -/
theorem foldl_normStep_plain (rooted : Bool) :
    ∀ (cs : List (List Char)), (∀ c ∈ cs, c ≠ [] ∧ c ≠ ['.'] ∧ c ≠ dotdot) →
      ∀ acc, cs.foldl (normStep rooted) acc = acc ++ cs := by
  intro cs
  induction cs with
  | nil => intro _ acc; simp
  | cons c rest ih =>
    intro hmem acc
    obtain ⟨hne, hnd, hndd⟩ := hmem c (List.mem_cons_self c rest)
    rw [List.foldl_cons,
      show normStep rooted acc c = acc ++ [c] from by
        unfold normStep
        rw [if_neg (by simp [hne, hnd]), if_pos (Or.inl hndd)],
      ih (fun x hx => hmem x (List.mem_cons_of_mem c hx)) (acc ++ [c]),
      List.append_assoc]
    rfl

/-- On unrooted paths a block of `..` components accumulates onto an
existing block of `..` components. -/
theorem foldl_normStep_dots (rooted : Bool) (hr : rooted = false) :
    ∀ (k j : Nat),
      (List.replicate k dotdot).foldl (normStep rooted) (List.replicate j dotdot) =
        List.replicate (j + k) dotdot := by
  intro k
  induction k with
  | zero => intro j; rfl
  | succ n ih =>
    intro j
    rw [List.replicate_succ, List.foldl_cons,
      show normStep rooted (List.replicate j dotdot) dotdot = List.replicate (j + 1) dotdot from by
        unfold normStep
        rw [if_neg (by simp [dotdot]), if_pos ?_, List.replicate_succ']
        cases j with
        | zero => exact Or.inr (Or.inl ⟨by simp [hr], rfl⟩)
        | succ i => exact Or.inr (Or.inr (getLast_replicate_dots (i + 1) (by omega))),
      ih (j + 1)]
    congr 1
    omega

/-- Re-running the fold over an already well-shaped stack reproduces it. -/
theorem foldl_normStep_rescan (rooted : Bool) (comps : List (List Char))
    (h : GoodStack rooted comps) :
    comps.foldl (normStep rooted) [] = comps := by
  obtain ⟨hcomp, k, good, hshape, hgd, hrk⟩ := h
  have hgood : ∀ c ∈ good, c ≠ [] ∧ c ≠ ['.'] ∧ c ≠ dotdot := by
    intro c hc
    have hmem : c ∈ comps := by
      rw [hshape]
      exact List.mem_append.mpr (Or.inr hc)
    obtain ⟨h1, h2, _⟩ := hcomp c hmem
    exact ⟨h1, h2, fun hdd => hgd (hdd ▸ hc)⟩
  by_cases hb : rooted = true
  · have hk0 := hrk hb
    subst hk0
    rw [hshape]
    simpa using foldl_normStep_plain rooted good hgood []
  · have hrooted : rooted = false := by simpa using hb
    rw [hshape, List.foldl_append,
      show (List.replicate k dotdot).foldl (normStep rooted) [] = List.replicate k dotdot from by
        have := foldl_normStep_dots rooted hrooted k 0
        simpa using this,
      foldl_normStep_plain rooted good hgood (List.replicate k dotdot)]

/-- The preserved slash prefix is zero, one, or two slashes. -/
theorem slashCount_cases (l : List Char) : slashCount l = 0 ∨ slashCount l = 1 ∨ slashCount l = 2 := by
  unfold slashCount
  split
  · split
    · right; right; rfl
    · right; left; rfl
  · left; rfl

/-- A list that does not start with `/` never has `['/']` as its
one-element prefix. -/
theorem take_one_ne_slash (rest : List Char) (hrest : rest.head? ≠ some '/') :
    rest.take 1 ≠ ['/'] := by
  cases rest with
  | nil => simp
  | cons c t =>
    simp only [List.take_succ_cons, List.take_zero]
    intro h
    have : c = '/' := by simpa using h
    exact hrest (by simp [this])

/-- The rebuilt path `'/' * s ++ rest` has slash prefix exactly `s`
whenever `rest` does not itself start with a slash. -/
theorem slashCount_rebuild (s : Nat) (hs : s = 0 ∨ s = 1 ∨ s = 2) (rest : List Char)
    (hrest : rest.head? ≠ some '/') :
    slashCount (List.replicate s '/' ++ rest) = s := by
  have htake := take_one_ne_slash rest hrest
  rcases hs with h | h | h <;> subst h
  · simp only [List.replicate_zero, List.nil_append]
    unfold slashCount
    rw [if_neg htake]
  · show slashCount ('/' :: rest) = 1
    unfold slashCount
    have h2 : ¬(('/' :: rest).take 2 = ['/', '/'] ∧ ¬('/' :: rest).take 3 = ['/', '/', '/']) := by
      rintro ⟨h2, _⟩
      apply htake
      simpa [List.take_succ_cons] using h2
    rw [if_pos (by simp), if_neg h2]
  · show slashCount ('/' :: '/' :: rest) = 2
    unfold slashCount
    have h3 : ¬('/' :: '/' :: rest).take 3 = ['/', '/', '/'] := by
      intro h3
      apply htake
      simpa [List.take_succ_cons] using h3
    rw [if_pos (by simp), if_pos ⟨by simp, h3⟩]

/-- The component stack `normpathCore` builds is well-shaped. -/
theorem normpathCore_stack_good (l : List Char) :
    GoodStack (slashCount l ≠ 0) ((splitSlash l).foldl (normStep (slashCount l ≠ 0)) []) :=
  foldl_normStep_good _ (splitSlash l) (splitSlash_no_slash l) [] (goodStack_nil _)

/-- Rebuilding a slash prefix and a well-shaped component stack is a
fixed point of `normpathCore`. -/
theorem normpathCore_rebuild (s : Nat) (hs : s = 0 ∨ s = 1 ∨ s = 2)
    (cm : List (List Char)) (hg : GoodStack (s ≠ 0) cm)
    (hne : List.replicate s '/' ++ joinSlash cm ≠ []) :
    normpathCore (List.replicate s '/' ++ joinSlash cm) =
      List.replicate s '/' ++ joinSlash cm := by
  cases cm with
  | nil =>
    simp only [joinSlash, List.append_nil] at hne ⊢
    have hslash : slashCount (List.replicate s '/') = s := by
      have := slashCount_rebuild s hs [] (by simp)
      simpa using this
    have hsplit : splitSlash (List.replicate s '/') = List.replicate s [] ++ [[]] := by
      have := splitSlash_replicate_slash s []
      simpa [splitSlash] using this
    have hallskip : ∀ c ∈ List.replicate s ([] : List Char) ++ [[]], c = [] ∨ c = ['.'] := by
      intro c hc
      rcases List.mem_append.mp hc with hc | hc
      · exact Or.inl (List.eq_of_mem_replicate hc)
      · left; simpa using hc
    unfold normpathCore
    rw [hslash, hsplit, foldl_normStep_skip _ _ hallskip []]
    simp [joinSlash]
  | cons c1 rest =>
    have hc1 : GoodComp c1 := hg.1 c1 (List.mem_cons_self c1 rest)
    have hhead : (joinSlash (c1 :: rest)).head? ≠ some '/' := by
      obtain ⟨t, ht⟩ := joinSlash_cons c1 rest
      rw [ht]
      cases hc1h : c1 with
      | nil => exact absurd hc1h hc1.1
      | cons a at1 =>
        simp only [List.cons_append, List.head?_cons]
        intro h
        have ha : a = '/' := by simpa using h
        exact hc1.2.2 (hc1h ▸ (ha ▸ List.mem_cons_self a at1))
    have hslash : slashCount (List.replicate s '/' ++ joinSlash (c1 :: rest)) = s :=
      slashCount_rebuild s hs (joinSlash (c1 :: rest)) hhead
    have hnoslash : ∀ p ∈ c1 :: rest, '/' ∉ p := fun p hp => (hg.1 p hp).2.2
    have hsplitj : splitSlash (joinSlash (c1 :: rest)) = c1 :: rest :=
      splitSlash_joinSlash (c1 :: rest) (by simp) hnoslash
    have hallskip : ∀ c ∈ List.replicate s ([] : List Char), c = [] ∨ c = ['.'] :=
      fun c hc => Or.inl (List.eq_of_mem_replicate hc)
    unfold normpathCore
    rw [hslash, splitSlash_replicate_slash s (joinSlash (c1 :: rest)), hsplitj,
      List.foldl_append, foldl_normStep_skip _ _ hallskip [],
      foldl_normStep_rescan _ (c1 :: rest) hg]

/-- `posixpath.normpath` is idempotent. -/
theorem normpathList_idem (l : List Char) : normpathList (normpathList l) = normpathList l := by
  by_cases hl : l = []
  · subst hl
    decide
  · have houter : normpathList l = if normpathCore l = [] then ['.'] else normpathCore l := by
      rw [normpathList, if_neg hl]
    by_cases hcore : normpathCore l = []
    · rw [houter, if_pos hcore]
      decide
    · rw [houter, if_neg hcore]
      have hreb : normpathCore (normpathCore l) = normpathCore l :=
        normpathCore_rebuild (slashCount l) (slashCount_cases l)
          ((splitSlash l).foldl (normStep (slashCount l ≠ 0)) [])
          (normpathCore_stack_good l) hcore
      rw [normpathList, if_neg hcore, if_neg (by rw [hreb]; exact hcore), hreb]

/-- C10: for every project name and nonempty install path, `_on_uninstall`
removes exactly one directory — the install path joined with the clean
project name — and that is precisely the directory the provisioner uses
for the virtual environment in non-dev mode: the provisioner's path is
the OS-normalized form of the uninstall target, and normalizing either
yields the same directory (the venv path is a `normpath` fixed point). -/
theorem uninstall_targets_venv_dir (installPath projectName : String) (h : installPath ≠ "") :
    ∃ v, _get_venv_folder_path installPath projectName false = some v ∧
      uninstall_dirs_to_remove installPath projectName =
        [path_join installPath (get_clean_name projectName)] ∧
      (uninstall_dirs_to_remove installPath projectName).map normpath = [v] ∧
      normpath v = v := by
  refine ⟨normpath (path_join installPath (get_clean_name projectName)), ?_, rfl, rfl, ?_⟩
  · unfold _get_venv_folder_path
    rw [if_neg h, if_neg (by simp)]
  · exact congrArg String.mk (normpathList_idem (path_join installPath (get_clean_name projectName)).data)

/-- C10 witness: the concrete install root `/opt/tools` and project
`My Project` (clean name `myproject`). -/
theorem uninstall_targets_venv_dir_witness :
    ∃ v, _get_venv_folder_path "/opt/tools" "My Project" false = some v ∧
      uninstall_dirs_to_remove "/opt/tools" "My Project" =
        [path_join "/opt/tools" (get_clean_name "My Project")] ∧
      (uninstall_dirs_to_remove "/opt/tools" "My Project").map normpath = [v] ∧
      normpath v = v :=
  uninstall_targets_venv_dir "/opt/tools" "My Project" (by decide)
